import Mathlib

/-!
Verification of the bionic-reader core (word splitter, text-run formatter,
ligature normalizer, layout replayer) against its natural-language
specification.  Python strings are modelled as `List Char`; the ASCII
fragment of Python's `str.isalnum` / `str.strip` predicates is used
(`Char.isAlphanum`, `Char.isWhitespace`).  The Python float ratio is
modelled as an exact rational; `int(n * r)` (truncation toward zero) is
computed on the rational's numerator and denominator so that all
definitions evaluate by kernel reduction.
-/

/-- ASCII fragment of Python's `str.isalnum` character test. -/
def isAlnumPy (c : Char) : Bool := c.isAlphanum

/-- Negation of the alphanumeric test, used by the punctuation scans. -/
def notAlnum (c : Char) : Bool := !(isAlnumPy c)

/-- Python `str.strip()`: drop leading and trailing whitespace. -/
def pyStrip (s : List Char) : List Char :=
  ((s.dropWhile Char.isWhitespace).reverse.dropWhile Char.isWhitespace).reverse

/-- Leading-punctuation scan of `apply_bionic_formatting` (source lines 23-27):
the maximal prefix of non-alphanumeric characters of the stripped word. -/
def leadingPunct (s : List Char) : List Char := s.takeWhile notAlnum

/-- The remainder of the stripped word after the leading-punctuation scan. -/
def afterLead (s : List Char) : List Char := s.dropWhile notAlnum

/-- Trailing-punctuation scan (source lines 29-33): the maximal suffix of
non-alphanumeric characters, bounded below by the leading scan's index. -/
def trailingPunct (s : List Char) : List Char :=
  ((afterLead s).reverse.takeWhile notAlnum).reverse

/-- The `actual_word` of the source (line 36): the alphanumeric-bounded core. -/
def coreOf (s : List Char) : List Char :=
  ((afterLead s).reverse.dropWhile notAlnum).reverse

/-- Python `int(n * r)` for a nonnegative integer `n` and float `r`, with the
float modelled as an exact rational: truncation toward zero of `n * r`,
computed as integer truncated division on numerator and denominator. -/
def intTimesTrunc (n : ℕ) (r : ℚ) : ℤ := (r.num * n).tdiv r.den

/-- Bold-count computation of `apply_bionic_formatting` (source lines 45-50). -/
def boldCount (n : ℕ) (r : ℚ) : ℤ :=
  if n ≤ 2 then 1 else if n ≤ 5 then 2 else max 1 (intTimesTrunc n r)

/-- Embedding of `apply_bionic_formatting` from
`src/backend/services/bionic_formatter.py` lines 13-60. -/
def apply_bionic_formatting (word : List Char) (r : ℚ) : List Char × List Char :=
  if word = [] ∨ pyStrip word = [] then (word, [])
  else
    let clean := pyStrip word
    if coreOf clean = [] then (word, [])
    else
      let k := (boldCount (coreOf clean).length r).toNat
      (leadingPunct clean ++ (coreOf clean).take k,
       (coreOf clean).drop k ++ trailingPunct clean)

/-- Per-token loop of `format_text` (source lines 77-82): every token except
the last gets one space appended to its regular part. -/
def formatWords (r : ℚ) : List (List Char) → List (List Char × List Char)
  | [] => []
  | [w] => [apply_bionic_formatting w r]
  | w :: x :: xs =>
      ((apply_bionic_formatting w r).1, (apply_bionic_formatting w r).2 ++ [' ']) ::
        formatWords r (x :: xs)

/-- Embedding of `format_text` from
`src/backend/services/bionic_formatter.py` lines 63-84: split on the single
ASCII space character, format each token, re-append inter-word spaces. -/
def format_text (text : List Char) (r : ℚ) : List (List Char × List Char) :=
  formatWords r (text.splitOn ' ')

/-- Concatenation of all (bold, regular) pairs of a formatted run. -/
def reconstruct (l : List (List Char × List Char)) : List Char :=
  l.foldr (fun p acc => p.1 ++ p.2 ++ acc) []

example : apply_bionic_formatting ['r','e','a','d','i','n','g'] (mkRat 1 2) =
    (['r','e','a'], ['d','i','n','g']) := by decide

example : apply_bionic_formatting ['i','t','\'','s'] (mkRat 1 2) =
    (['i','t'], ['\'','s']) := by decide

example : apply_bionic_formatting ['(','t','e','s','t',')'] (mkRat 1 2) =
    (['(','t','e'], ['s','t',')']) := by decide

example : apply_bionic_formatting ['-','-'] (mkRat 1 2) = (['-','-'], []) := by decide

example : apply_bionic_formatting ['\t','a'] (mkRat 1 2) = (['a'], []) := by decide

example : format_text ['a',' ',' ','b'] (mkRat 1 2) =
    [(['a'], [' ']), ([], [' ']), (['b'], [])] := by decide

/-! ### Decomposition of a stripped word into punctuation and core -/

/-- The two punctuation scans and the core partition the scanned string. -/
lemma leading_core_trailing_decomp (s : List Char) :
    leadingPunct s ++ (coreOf s ++ trailingPunct s) = s := by
  have h1 : coreOf s ++ trailingPunct s = afterLead s := by
    unfold coreOf trailingPunct
    rw [← List.reverse_append, List.takeWhile_append_dropWhile, List.reverse_reverse]
  rw [h1]
  unfold leadingPunct afterLead
  exact List.takeWhile_append_dropWhile _ _

/-- Concatenating the two halves returned by `apply_bionic_formatting`
recovers the stripped input whenever stripping was a no-op (and recovers the
raw input verbatim in the degenerate branches). -/
lemma apply_concat_eq (w : List Char) (r : ℚ)
    (h : pyStrip w = w ∨ pyStrip w = []) :
    (apply_bionic_formatting w r).1 ++ (apply_bionic_formatting w r).2 = w := by
  unfold apply_bionic_formatting
  by_cases h0 : w = [] ∨ pyStrip w = []
  · simp [h0]
  · push_neg at h0
    have hsw : pyStrip w = w := by
      rcases h with h | h
      · exact h
      · exact absurd h h0.2
    rw [if_neg (by simp [h0.1, h0.2])]
    simp only [hsw]
    by_cases hc : coreOf w = []
    · simp [hc]
    · rw [if_neg hc]
      simp only
      rw [← List.append_assoc, List.append_assoc (leadingPunct w)]
      rw [List.take_append_drop]
      rw [List.append_assoc]
      exact leading_core_trailing_decomp w

/-- C2, counterexample: `apply_bionic_formatting` is lossy on the raw token
`"\ta"` — the leading tab is stripped and never re-emitted, so the two
halves do not concatenate to the input. -/
theorem apply_concat_cex :
    (apply_bionic_formatting ['\t','a'] 0).1 ++
      (apply_bionic_formatting ['\t','a'] 0).2 ≠ ['\t','a'] := by decide

/-- C2 (amended): for every token whose whitespace-strip is a no-op (or
which is entirely whitespace), `apply_bionic_formatting` is lossless:
boldText ++ regularText equals the raw token, for every ratio. -/
theorem apply_bionic_formatting_lossless (w : List Char) (r : ℚ)
    (h : pyStrip w = w ∨ pyStrip w = []) :
    (apply_bionic_formatting w r).1 ++ (apply_bionic_formatting w r).2 = w :=
  apply_concat_eq w r h

/-- C2, witness: the amended losslessness theorem at the concrete token
`"(test)"` and ratio 1/2. -/
theorem apply_bionic_formatting_lossless_witness :
    (pyStrip ['(','t','e','s','t',')'] = ['(','t','e','s','t',')'] ∨
      pyStrip ['(','t','e','s','t',')'] = []) ∧
    (apply_bionic_formatting ['(','t','e','s','t',')'] (mkRat 1 2)).1 ++
      (apply_bionic_formatting ['(','t','e','s','t',')'] (mkRat 1 2)).2 =
      ['(','t','e','s','t',')'] :=
  ⟨by decide, apply_bionic_formatting_lossless _ _ (by decide)⟩

/-! ### Run-level round trip of `format_text` -/

/-- Evaluation of `reconstruct` on a cons cell. -/
lemma reconstruct_cons (p : List Char × List Char) (l : List (List Char × List Char)) :
    reconstruct (p :: l) = p.1 ++ p.2 ++ reconstruct l := rfl

/-- Concatenating all pairs emitted by the token loop rebuilds the token
list re-joined with single spaces, provided each token is strip-invariant. -/
lemma reconstruct_formatWords (r : ℚ) :
    ∀ ws : List (List Char), (∀ t ∈ ws, pyStrip t = t ∨ pyStrip t = []) →
      reconstruct (formatWords r ws) = [' '].intercalate ws
  | [], _ => by simp [formatWords, reconstruct, List.intercalate]
  | [w], h => by
      have hw := apply_concat_eq w r (h w (by simp))
      simp [formatWords, reconstruct_cons, reconstruct, List.intercalate,
        List.intersperse_singleton, hw]
  | w :: x :: xs, h => by
      have hw := apply_concat_eq w r (h w (by simp))
      have ih := reconstruct_formatWords r (x :: xs) (fun t ht => h t (by simp [ht]))
      simp only [formatWords, reconstruct_cons]
      rw [ih]
      simp only [List.intercalate, List.intersperse_cons₂, List.flatten_cons]
      rw [← List.append_assoc, hw, List.singleton_append]
      simp

/-- C3, counterexample: `format_text` does not round-trip the text `"\ta"`
(single token with a leading tab): the tab is lost. -/
theorem format_text_roundtrip_cex :
    reconstruct (format_text ['\t','a'] 0) ≠ ['\t','a'] := by decide

/-- C3 (amended): concatenating bold ++ regular over all pairs of
`format_text text r`, in order, reconstructs `text` byte-for-byte provided
no token of `text.splitOn ' '` carries exterior non-space whitespace
(texts with runs of multiple spaces, and tabs interior to a token, are
covered; a tab at a token edge is stripped and breaks the round trip). -/
theorem format_text_roundtrip (text : List Char) (r : ℚ)
    (h : ∀ t ∈ text.splitOn ' ', pyStrip t = t ∨ pyStrip t = []) :
    reconstruct (format_text text r) = text := by
  unfold format_text
  rw [reconstruct_formatWords r _ h]
  exact List.intercalate_splitOn text ' '

/-- C3, witness: the amended round trip on `"a  b\tc"` (double space and an
interior tab) at ratio 1/2. -/
theorem format_text_roundtrip_witness :
    (∀ t ∈ (['a',' ',' ','b','\t','c'] : List Char).splitOn ' ',
        pyStrip t = t ∨ pyStrip t = []) ∧
    reconstruct (format_text ['a',' ',' ','b','\t','c'] (mkRat 1 2)) =
      ['a',' ',' ','b','\t','c'] :=
  ⟨by decide, format_text_roundtrip _ _ (by decide)⟩

/-! ### Degenerate tokens -/

/-- C7 (confirmed): for every ratio, `apply_bionic_formatting` returns the
raw input paired with the empty string whenever the input is empty, all
whitespace, or has an empty alphanumeric core (all-punctuation tokens). -/
theorem apply_bionic_formatting_degenerate (w : List Char) (r : ℚ)
    (h : w = [] ∨ pyStrip w = [] ∨ coreOf (pyStrip w) = []) :
    apply_bionic_formatting w r = (w, []) := by
  unfold apply_bionic_formatting
  by_cases h0 : w = [] ∨ pyStrip w = []
  · simp [h0]
  · push_neg at h0
    rw [if_neg (by simp [h0.1, h0.2])]
    have hc : coreOf (pyStrip w) = [] := by
      rcases h with h | h | h
      · exact absurd h h0.1
      · exact absurd h h0.2
      · exact h
    simp [hc]

/-- C7, witness: the degenerate identity at the all-punctuation tokens
`"--"`, `"..."`, `"()"` and ratio 0. -/
theorem apply_bionic_formatting_degenerate_witness :
    (['-','-'] = ([] : List Char) ∨ pyStrip ['-','-'] = [] ∨ coreOf (pyStrip ['-','-']) = []) ∧
    apply_bionic_formatting ['-','-'] 0 = (['-','-'], []) ∧
    apply_bionic_formatting ['.','.','.'] 0 = (['.','.','.'], []) ∧
    apply_bionic_formatting ['(',')'] 0 = (['(',')'], []) :=
  ⟨by decide, apply_bionic_formatting_degenerate _ _ (by decide), by decide, by decide⟩

/-! ### Bold-count policy -/

/-- The core scans evaluate to nil on the empty string. -/
lemma coreOf_nil : coreOf [] = [] := rfl

/-- Stripping the empty string yields the empty string. -/
lemma pyStrip_nil : pyStrip [] = [] := rfl

/-- Main-branch shape of `apply_bionic_formatting`: on a token with a
non-empty alphanumeric core, the result is the punctuation-framed split of
the core at the computed bold count. -/
lemma apply_bionic_formatting_main (w : List Char) (r : ℚ)
    (hc : coreOf (pyStrip w) ≠ []) :
    apply_bionic_formatting w r =
      (leadingPunct (pyStrip w) ++
        (coreOf (pyStrip w)).take ((boldCount (coreOf (pyStrip w)).length r).toNat),
       (coreOf (pyStrip w)).drop ((boldCount (coreOf (pyStrip w)).length r).toNat) ++
        trailingPunct (pyStrip w)) := by
  have hst : pyStrip w ≠ [] := fun h => hc (by rw [h]; exact coreOf_nil)
  have hw : w ≠ [] := fun h => hst (by rw [h]; exact pyStrip_nil)
  unfold apply_bionic_formatting
  rw [if_neg (by simp [hw, hst]), if_neg hc]

/-- Truncation toward zero agrees with the floor on nonnegative rationals:
`int(n * r)` is `⌊n * r⌋` whenever `r ≥ 0`. -/
lemma intTimesTrunc_eq_floor (n : ℕ) (r : ℚ) (hr : 0 ≤ r) :
    intTimesTrunc n r = ⌊(n : ℚ) * r⌋ := by
  have hnum : 0 ≤ r.num := Rat.num_nonneg.2 hr
  have ha : 0 ≤ r.num * (n : ℤ) := mul_nonneg hnum (Int.natCast_nonneg n)
  have h2 : (n : ℚ) * r = ((r.num * (n : ℤ) : ℤ) : ℚ) / ((r.den : ℕ) : ℚ) := by
    conv_lhs => rw [← Rat.num_div_den r]
    push_cast
    ring
  rw [intTimesTrunc, Int.tdiv_eq_ediv ha (Int.natCast_nonneg r.den), h2,
    Rat.floor_intCast_div_natCast]

/-- After the `max 1` guard, truncation toward zero and floor coincide for
every ratio (they differ only on negative non-integers, where both are
guarded to 1). -/
lemma max_one_intTimesTrunc (n : ℕ) (hn : 0 < n) (r : ℚ) :
    max 1 (intTimesTrunc n r) = max 1 ⌊(n : ℚ) * r⌋ := by
  rcases le_or_lt 0 r with hr | hr
  · rw [intTimesTrunc_eq_floor n r hr]
  · have hnum : r.num < 0 := by
      by_contra hge
      exact absurd (Rat.num_nonneg.1 (le_of_not_lt hge)) (not_le.2 hr)
    have ha : r.num * (n : ℤ) < 0 :=
      mul_neg_of_neg_of_pos hnum (by exact_mod_cast hn)
    have h1 : intTimesTrunc n r ≤ 0 := by
      rw [intTimesTrunc, show r.num * (n : ℤ) = -(-(r.num * (n : ℤ))) by ring,
        Int.neg_tdiv]
      exact neg_nonpos_of_nonneg
        (Int.tdiv_nonneg (by omega) (Int.natCast_nonneg r.den))
    have h2 : ⌊(n : ℚ) * r⌋ ≤ 0 := by
      have : (n : ℚ) * r < 0 :=
        mul_neg_of_pos_of_neg (by exact_mod_cast hn) hr
      calc ⌊(n : ℚ) * r⌋ ≤ ⌊(0 : ℚ)⌋ := Int.floor_le_floor this.le
        _ = 0 := Int.floor_zero
    rw [max_eq_left (h1.trans zero_le_one), max_eq_left (h2.trans zero_le_one)]

/-- Bold-count formula exactly as the specification words it: 1 for cores of
length at most 2, 2 for lengths 3 to 5, and `max(1, floor(n*r))` clamped
into `[0, n]` for lengths 6 and up. -/
def specBoldCount (n : ℕ) (r : ℚ) : ℕ :=
  if n ≤ 2 then 1 else if n ≤ 5 then 2 else min ((max 1 ⌊(n : ℚ) * r⌋).toNat) n

/-- Taking or dropping more than the length is the same as clamping. -/
lemma take_drop_clamp (l : List Char) (m : ℕ) :
    l.take m = l.take (min m l.length) ∧ l.drop m = l.drop (min m l.length) := by
  rcases le_total m l.length with h | h
  · rw [min_eq_left h]
    exact ⟨rfl, rfl⟩
  · rw [min_eq_right h]
    constructor
    · rw [List.take_of_length_le h, List.take_length]
    · rw [List.drop_eq_nil_of_le h, List.drop_length]

/-- The specification's clamped count always lies between 1 and n. -/
lemma specBoldCount_pos (n : ℕ) (r : ℚ) (hn : 1 ≤ n) : 1 ≤ specBoldCount n r := by
  unfold specBoldCount
  split
  · exact le_refl 1
  · split
    · omega
    · refine le_min ?_ hn
      calc 1 = (1 : ℤ).toNat := rfl
        _ ≤ (max 1 ⌊(n : ℚ) * r⌋).toNat := Int.toNat_le_toNat (le_max_left _ _)

/-- C4 (confirmed): for every word whose alphanumeric core is non-empty and
every rational ratio (negative and above-one included), the split is the
specification's tiered bold count — 1 for core length at most 2, 2 for 3-5,
`max(1, floor(n*r))` clamped into `[0,n]` for length at least 6 — and the
bold core part is never empty. -/
theorem apply_bionic_formatting_boldCount_policy (w : List Char) (r : ℚ)
    (h : 1 ≤ (coreOf (pyStrip w)).length) :
    apply_bionic_formatting w r =
      (leadingPunct (pyStrip w) ++
        (coreOf (pyStrip w)).take (specBoldCount (coreOf (pyStrip w)).length r),
       (coreOf (pyStrip w)).drop (specBoldCount (coreOf (pyStrip w)).length r) ++
        trailingPunct (pyStrip w)) ∧
    (coreOf (pyStrip w)).take (specBoldCount (coreOf (pyStrip w)).length r) ≠ [] := by
  have hc : coreOf (pyStrip w) ≠ [] := by
    intro hnil
    rw [hnil] at h
    simp at h
  set c := coreOf (pyStrip w) with hcdef
  set n := c.length with hndef
  have hmain := apply_bionic_formatting_main w r hc
  constructor
  · rw [hmain]
    have htake : c.take ((boldCount n r).toNat) = c.take (specBoldCount n r) ∧
        c.drop ((boldCount n r).toNat) = c.drop (specBoldCount n r) := by
      unfold boldCount specBoldCount
      by_cases h2 : n ≤ 2
      · simp [h2]
      · by_cases h5 : n ≤ 5
        · simp [h2, h5]
        · rw [if_neg h2, if_neg h5, if_neg h2, if_neg h5]
          rw [max_one_intTimesTrunc n (by omega) r]
          rw [hndef]
          exact take_drop_clamp c _
    rw [htake.1, htake.2]
  · intro hnil
    have := congrArg List.length hnil
    rw [List.length_take] at this
    simp only [List.length_nil] at this
    have h1 := specBoldCount_pos n r h
    omega

/-- C4, witness: the policy at the concrete word `"reading"` (core length 7)
and ratio 1/2, giving `floor(7 * 0.5) = 3` bold characters: `("rea", "ding")`. -/
theorem apply_bionic_formatting_boldCount_policy_witness :
    (1 ≤ (coreOf (pyStrip ['r','e','a','d','i','n','g'])).length) ∧
    (apply_bionic_formatting ['r','e','a','d','i','n','g'] (mkRat 1 2) =
      (leadingPunct (pyStrip ['r','e','a','d','i','n','g']) ++
        (coreOf (pyStrip ['r','e','a','d','i','n','g'])).take
          (specBoldCount (coreOf (pyStrip ['r','e','a','d','i','n','g'])).length (mkRat 1 2)),
       (coreOf (pyStrip ['r','e','a','d','i','n','g'])).drop
          (specBoldCount (coreOf (pyStrip ['r','e','a','d','i','n','g'])).length (mkRat 1 2)) ++
        trailingPunct (pyStrip ['r','e','a','d','i','n','g'])) ∧
      (coreOf (pyStrip ['r','e','a','d','i','n','g'])).take
        (specBoldCount (coreOf (pyStrip ['r','e','a','d','i','n','g'])).length (mkRat 1 2)) ≠ []) ∧
    apply_bionic_formatting ['r','e','a','d','i','n','g'] (mkRat 1 2) =
      (['r','e','a'], ['d','i','n','g']) :=
  ⟨by decide, apply_bionic_formatting_boldCount_policy _ _ (by decide), by decide⟩

/-- C9 (confirmed): for a word with core length at least 6 and ratios
`0 ≤ r1 ≤ r2 ≤ 1`, the bold part computed at `r1` is no longer than the bold
part computed at `r2`. -/
theorem apply_bionic_formatting_bold_monotone (w : List Char) (r1 r2 : ℚ)
    (hn : 6 ≤ (coreOf (pyStrip w)).length)
    (h0 : 0 ≤ r1) (h12 : r1 ≤ r2) (h1 : r2 ≤ 1) :
    (apply_bionic_formatting w r1).1.length ≤ (apply_bionic_formatting w r2).1.length := by
  have hc : coreOf (pyStrip w) ≠ [] := by
    intro hnil
    rw [hnil] at hn
    simp at hn
  set c := coreOf (pyStrip w) with hcdef
  set n := c.length with hndef
  rw [apply_bionic_formatting_main w r1 hc, apply_bionic_formatting_main w r2 hc]
  simp only [List.length_append, List.length_take]
  have hb : boldCount n r1 ≤ boldCount n r2 := by
    unfold boldCount
    rw [if_neg (by omega), if_neg (by omega), if_neg (by omega), if_neg (by omega)]
    rw [max_one_intTimesTrunc n (by omega) r1, max_one_intTimesTrunc n (by omega) r2]
    refine max_le_max (le_refl 1) (Int.floor_le_floor ?_)
    exact mul_le_mul_of_nonneg_left h12 (by positivity)
  exact Nat.add_le_add_left (min_le_min (Int.toNat_le_toNat hb) (le_refl _)) _

/-- C9, witness: monotonicity on `"document"` (core length 8) between
ratios 1/4 and 3/4: bold lengths 2 and 6. -/
theorem apply_bionic_formatting_bold_monotone_witness :
    (6 ≤ (coreOf (pyStrip ['d','o','c','u','m','e','n','t'])).length) ∧
    (0 ≤ mkRat 1 4) ∧ (mkRat 1 4 ≤ mkRat 3 4) ∧ (mkRat 3 4 ≤ 1) ∧
    (apply_bionic_formatting ['d','o','c','u','m','e','n','t'] (mkRat 1 4)).1.length ≤
      (apply_bionic_formatting ['d','o','c','u','m','e','n','t'] (mkRat 3 4)).1.length :=
  ⟨by decide, by decide, by decide, by decide,
    apply_bionic_formatting_bold_monotone _ _ _ (by decide) (by decide) (by decide) (by decide)⟩

/-! ### Ligature normalization -/

/-- The ligature table of `fix_ligatures`
(`src/backend/services/pdf_generator.py` lines 8-16), in source (dict
insertion) order. -/
def ligature_map : List (Char × List Char) :=
  [('ﬁ', ['f','i']), ('ﬂ', ['f','l']), ('ﬀ', ['f','f']),
   ('ﬃ', ['f','f','i']), ('ﬄ', ['f','f','l']),
   ('ﬅ', ['f','t']), ('ﬆ', ['s','t'])]

/-- Python `text.replace(lig, repl)` for a single-character pattern. -/
def pyReplaceChar (s : List Char) (lig : Char) (repl : List Char) : List Char :=
  s.flatMap (fun c => if c = lig then repl else [c])

/-- Sequential application of a replacement table, in list order — the
`for ligature, replacement in ligature_map.items()` loop of the source. -/
def applyTable (l : List (Char × List Char)) (s : List Char) : List Char :=
  l.foldl (fun acc p => pyReplaceChar acc p.1 p.2) s

/-- Embedding of `fix_ligatures` from
`src/backend/services/pdf_generator.py` lines 4-21. -/
def fix_ligatures (s : List Char) : List Char := applyTable ligature_map s

/-- One-pass character substitution over the ligature table: the expansion
for table characters, the character itself otherwise. -/
def ligSub (c : Char) : List Char := (ligature_map.lookup c).getD [c]

/-- Per-character effect of sequentially applying the entries of `l`. -/
def chainSub : List (Char × List Char) → Char → List Char
  | [], c => [c]
  | p :: l, c => (if c = p.1 then p.2 else [c]).flatMap (chainSub l)

/-- Sequential whole-string replacement is the character-wise chain. -/
lemma applyTable_eq_flatMap :
    ∀ (l : List (Char × List Char)) (s : List Char),
      applyTable l s = s.flatMap (chainSub l)
  | [], s => by simp [applyTable, chainSub]
  | p :: l, s => by
      show applyTable l (pyReplaceChar s p.1 p.2) = _
      rw [applyTable_eq_flatMap l _, pyReplaceChar, List.flatMap_assoc]
      rfl

/-- A character that is no key of the table is left alone by the chain. -/
lemma chainSub_not_key :
    ∀ (l : List (Char × List Char)) (c : Char), c ∉ l.map Prod.fst →
      chainSub l c = [c]
  | [], c, _ => rfl
  | p :: l, c, h => by
      have hc : c ≠ p.1 := by
        intro he
        exact h (by simp [he])
      rw [chainSub, if_neg hc, List.flatMap_singleton]
      exact chainSub_not_key l c (fun hm => h (by simp [hm]))

/-- Well-formedness of a replacement table: keys are distinct and no
replacement string contains any key (so later passes cannot rewrite the
output of earlier ones). -/
def tableOK (l : List (Char × List Char)) : Prop :=
  (l.map Prod.fst).Nodup ∧ ∀ p ∈ l, ∀ d ∈ p.2, d ∉ l.map Prod.fst

instance (l : List (Char × List Char)) : Decidable (tableOK l) := by
  unfold tableOK
  infer_instance

/-- A key bound in an association list is found by `lookup` when keys are
distinct. -/
lemma lookup_of_mem_of_nodup :
    ∀ (l : List (Char × List Char)) (c : Char) (v : List Char),
      (l.map Prod.fst).Nodup → (c, v) ∈ l → l.lookup c = some v
  | [], _, _, _, h => by simp at h
  | (k, u) :: l, c, v, hnd, h => by
      rw [List.map_cons, List.nodup_cons] at hnd
      rcases List.mem_cons.1 h with h | h
      · rw [Prod.mk.injEq] at h
        obtain ⟨h1, h2⟩ := h
        subst h1
        subst h2
        simp [List.lookup_cons]
      · have hmap : c ∈ l.map Prod.fst := List.mem_map.2 ⟨(c, v), h, rfl⟩
        have hck : c ≠ k := by
          intro he
          rw [he] at hmap
          exact hnd.1 hmap
        rw [List.lookup_cons]
        simp only [beq_eq_false_iff_ne.2 hck]
        exact lookup_of_mem_of_nodup l c v hnd.2 h

/-- A key absent from an association list is not found by `lookup`. -/
lemma lookup_of_not_mem :
    ∀ (l : List (Char × List Char)) (c : Char), c ∉ l.map Prod.fst →
      l.lookup c = none
  | [], _, _ => rfl
  | (k, u) :: l, c, h => by
      have hck : c ≠ k := fun he => h (by simp [he])
      rw [List.lookup_cons]
      simp only [beq_eq_false_iff_ne.2 hck]
      exact lookup_of_not_mem l c (fun hm => h (by simp [hm]))

/-- A successful `lookup` witnesses membership. -/
lemma mem_of_lookup :
    ∀ (l : List (Char × List Char)) (c : Char) (v : List Char),
      l.lookup c = some v → (c, v) ∈ l
  | [], _, _, h => by simp [List.lookup] at h
  | (k, u) :: l, c, v, h => by
      rw [List.lookup_cons] at h
      by_cases hck : c = k
      · subst hck
        simp at h
        simp [h]
      · simp only [beq_eq_false_iff_ne.2 hck] at h
        exact List.mem_cons_of_mem _ (mem_of_lookup l c v h)

/-- Table well-formedness is invariant under permutation. -/
lemma tableOK_of_perm (l : List (Char × List Char))
    (hp : l.Perm ligature_map) : tableOK l := by
  have hOK : tableOK ligature_map := by decide
  refine ⟨((hp.map Prod.fst).nodup_iff).2 hOK.1, ?_⟩
  intro p hpmem d hd hdk
  exact hOK.2 p (hp.mem_iff.1 hpmem) d hd (((hp.map Prod.fst).mem_iff).1 hdk)

/-- Lookup is permutation-invariant for tables with distinct keys. -/
lemma lookup_perm (l : List (Char × List Char)) (hp : l.Perm ligature_map)
    (c : Char) : l.lookup c = ligature_map.lookup c := by
  have hnd : (l.map Prod.fst).Nodup := (tableOK_of_perm l hp).1
  cases h : ligature_map.lookup c with
  | some v =>
      exact lookup_of_mem_of_nodup l c v hnd (hp.mem_iff.2 (mem_of_lookup _ _ _ h))
  | none =>
      refine lookup_of_not_mem l c ?_
      intro hm
      obtain ⟨⟨k, v⟩, hmem, he⟩ := List.mem_map.1 hm
      subst he
      rw [lookup_of_mem_of_nodup ligature_map _ v (by decide)
        (hp.mem_iff.1 hmem)] at h
      exact Option.noConfusion h

/-- The chain over a well-formed table is its one-pass lookup substitution. -/
lemma chainSub_eq_lookup :
    ∀ (l : List (Char × List Char)), tableOK l →
      ∀ c, chainSub l c = (l.lookup c).getD [c]
  | [], _, c => by simp [chainSub]
  | (k, v) :: l, hOK, c => by
      obtain ⟨hnd, hrep⟩ := hOK
      rw [List.map_cons, List.nodup_cons] at hnd
      have hOK' : tableOK l := by
        refine ⟨hnd.2, ?_⟩
        intro p hpmem d hd hdk
        exact hrep p (List.mem_cons_of_mem _ hpmem) d hd (by simp [hdk])
      by_cases hck : c = k
      · subst hck
        rw [chainSub, if_pos rfl, List.lookup_cons]
        simp only [beq_self_eq_true]
        have hv : ∀ d ∈ v, chainSub l d = [d] := by
          intro d hd
          refine chainSub_not_key l d ?_
          intro hdk
          exact hrep (c, v) (List.mem_cons_self _ _) d hd (by simp [hdk])
        rw [List.flatMap_congr hv]
        simp
      · rw [chainSub, if_neg hck, List.flatMap_singleton, List.lookup_cons]
        simp only [beq_eq_false_iff_ne.2 hck]
        exact chainSub_eq_lookup l hOK' c

/-- C8 (confirmed): `fix_ligatures` is a total, order-independent character
substitution over the fixed ligature table — applying the table entries in
any order equals the one-pass substitution `ligSub`, which expands each of
the seven ligature code points (fi, fl, ff, ffi, ffl, ft, st) and leaves
every other character unchanged and in order. -/
theorem fix_ligatures_substitution (l : List (Char × List Char)) (s : List Char)
    (hp : l.Perm ligature_map) :
    applyTable l s = s.flatMap ligSub ∧
    fix_ligatures s = s.flatMap ligSub ∧
    (∀ p ∈ ligature_map, ligSub p.1 = p.2) ∧
    (∀ c : Char, c ∉ ligature_map.map Prod.fst → ligSub c = [c]) := by
  have key : ∀ (l' : List (Char × List Char)), l'.Perm ligature_map →
      applyTable l' s = s.flatMap ligSub := by
    intro l' hp'
    rw [applyTable_eq_flatMap]
    refine List.flatMap_congr ?_
    intro c _
    rw [chainSub_eq_lookup l' (tableOK_of_perm l' hp') c, lookup_perm l' hp' c]
    rfl
  refine ⟨key l hp, key ligature_map (List.Perm.refl _), by decide, ?_⟩
  intro c hc
  unfold ligSub
  rw [lookup_of_not_mem ligature_map c hc]
  rfl

/-- C8, witness: order-independence over the reversed table, and the
concrete expansion of the fi-ligature: `fix_ligatures "ﬁrst" = "first"`. -/
theorem fix_ligatures_substitution_witness :
    (ligature_map.reverse.Perm ligature_map) ∧
    (applyTable ligature_map.reverse ['ﬁ','r','s','t'] =
        ['ﬁ','r','s','t'].flatMap ligSub ∧
      fix_ligatures ['ﬁ','r','s','t'] = ['ﬁ','r','s','t'].flatMap ligSub ∧
      (∀ p ∈ ligature_map, ligSub p.1 = p.2) ∧
      (∀ c : Char, c ∉ ligature_map.map Prod.fst → ligSub c = [c])) ∧
    fix_ligatures ['ﬁ','r','s','t'] = ['f','i','r','s','t'] :=
  ⟨by decide, fix_ligatures_substitution _ _ (by decide), by decide⟩

/-! ### Markup-path token formatting (EPUB) -/

/-- Python regex word character `\w` (ASCII fragment): alphanumeric or
underscore. -/
def isWordChar (c : Char) : Bool := isAlnumPy c || c == '_'

/-- The three candidate groups of the anchored greedy pattern
`^(\W*)(\w+)(\W*)$`: maximal non-word prefix, then maximal word run, then
the remainder. -/
def wordRun (w : List Char) : List Char × List Char × List Char :=
  (w.takeWhile (fun c => !isWordChar c),
   (w.dropWhile (fun c => !isWordChar c)).takeWhile isWordChar,
   (w.dropWhile (fun c => !isWordChar c)).dropWhile isWordChar)

/-- Embedding of `re.match(r'^(\W*)(\w+)(\W*)$', word)` from
`src/backend/services/epub_service.py` line 210: because `\w` and `\W` are
complementary character classes, the anchored greedy pattern matches exactly
when the word is one non-word run, one non-empty word run, and one non-word
run, and the groups are those maximal runs. -/
def reMatch (w : List Char) : Option (List Char × List Char × List Char) :=
  if (wordRun w).2.1 ≠ [] ∧ (wordRun w).2.2.all (fun c => !isWordChar c) then
    some (wordRun w)
  else none

/-- Per-token decomposition emitted by `format_text_bionic`
(`src/backend/services/epub_service.py` lines 210-232): on a regex match,
prefix punctuation plus the bold core prefix (the `<strong>` content), and
the remaining core plus suffix punctuation; `none` models the fall-through
branch that emits the token unchanged with no emphasis wrapper.  The bold
count (source lines 216-222) is the same tier computation as
`apply_bionic_formatting`. -/
def format_token_bionic (w : List Char) (r : ℚ) : Option (List Char × List Char) :=
  (reMatch w).map (fun t =>
    (t.1 ++ t.2.1.take ((boldCount t.2.1.length r).toNat),
     t.2.1.drop ((boldCount t.2.1.length r).toNat) ++ t.2.2))

/-- C5, counterexample: on the token `"it's"` (interior apostrophe, so the
anchored pattern does not match), the markup path emits the token unchanged
with no bold split, while `apply_bionic_formatting` splits it as
`("it", "'s")` — the two paths disagree. -/
theorem format_token_bionic_cex :
    format_token_bionic ['i','t','\'','s'] (mkRat 1 2) = none ∧
    apply_bionic_formatting ['i','t','\'','s'] (mkRat 1 2) = (['i','t'], ['\'','s']) :=
  ⟨by decide, by decide⟩

/-- takeWhile only depends on the predicate's values on the list. -/
lemma takeWhile_congr_mem {p q : Char → Bool} :
    ∀ l : List Char, (∀ c ∈ l, p c = q c) → l.takeWhile p = l.takeWhile q
  | [], _ => rfl
  | c :: t, h => by
      rw [List.takeWhile_cons, List.takeWhile_cons, h c (by simp)]
      rcases Bool.eq_false_or_eq_true (q c) with hq | hq
      · rw [hq]
        simp only [if_true]
        rw [takeWhile_congr_mem t (fun d hd => h d (by simp [hd]))]
      · rw [hq]
        simp

/-- dropWhile only depends on the predicate's values on the list. -/
lemma dropWhile_congr_mem {p q : Char → Bool} :
    ∀ l : List Char, (∀ c ∈ l, p c = q c) → l.dropWhile p = l.dropWhile q
  | [], _ => rfl
  | c :: t, h => by
      rw [List.dropWhile_cons, List.dropWhile_cons, h c (by simp)]
      rcases Bool.eq_false_or_eq_true (q c) with hq | hq
      · rw [hq]
        simp only [if_true]
        rw [dropWhile_congr_mem t (fun d hd => h d (by simp [hd]))]
      · rw [hq]
        simp

/-- takeWhile runs through a fully satisfying prefix. -/
lemma takeWhile_append_of_all {p : Char → Bool} :
    ∀ a b : List Char, (∀ c ∈ a, p c = true) →
      (a ++ b).takeWhile p = a ++ b.takeWhile p
  | [], b, _ => rfl
  | c :: t, b, h => by
      rw [List.cons_append, List.takeWhile_cons, h c (by simp), if_pos rfl,
        takeWhile_append_of_all t b (fun d hd => h d (by simp [hd]))]
      rfl

/-- dropWhile consumes a fully satisfying prefix. -/
lemma dropWhile_append_of_all {p : Char → Bool} :
    ∀ a b : List Char, (∀ c ∈ a, p c = true) →
      (a ++ b).dropWhile p = b.dropWhile p
  | [], _, _ => rfl
  | c :: t, b, h => by
      rw [List.cons_append, List.dropWhile_cons, h c (by simp), if_pos rfl,
        dropWhile_append_of_all t b (fun d hd => h d (by simp [hd]))]

/-- dropWhile is the identity when no element satisfies the predicate. -/
lemma dropWhile_eq_self_of_all {p : Char → Bool} (l : List Char)
    (h : ∀ c ∈ l, p c = false) : l.dropWhile p = l := by
  cases l with
  | nil => rfl
  | cons c t =>
      rw [List.dropWhile_cons, h c (by simp)]
      simp

/-- Stripping is a no-op on a token with no whitespace characters. -/
lemma pyStrip_eq_self (w : List Char) (h : ∀ c ∈ w, c.isWhitespace = false) :
    pyStrip w = w := by
  unfold pyStrip
  rw [dropWhile_eq_self_of_all w h,
    dropWhile_eq_self_of_all w.reverse (fun c hc => h c (List.mem_reverse.1 hc)),
    List.reverse_reverse]

/-- C5 (amended): the two paths agree on every whitespace-free,
underscore-free token accepted by the anchored pattern (equivalently: a
token of shape non-alphanumeric* alphanumeric+ non-alphanumeric*): the
markup decomposition equals the `apply_bionic_formatting` split. -/
theorem format_token_bionic_agrees (w : List Char) (r : ℚ)
    (hws : ∀ c ∈ w, c.isWhitespace = false)
    (hund : ∀ c ∈ w, c ≠ '_')
    (hm : reMatch w ≠ none) :
    format_token_bionic w r = some (apply_bionic_formatting w r) := by
  by_cases hcond : (wordRun w).2.1 ≠ [] ∧ (wordRun w).2.2.all (fun c => !isWordChar c)
  case neg => exact absurd (by rw [reMatch, if_neg hcond]) hm
  obtain ⟨hcore, hsuf⟩ := hcond
  have hpq : ∀ c ∈ w, notAlnum c = (fun c => !isWordChar c) c := by
    intro c hc
    have h1 : (c == '_') = false := beq_eq_false_iff_ne.2 (hund c hc)
    simp [notAlnum, isWordChar, h1]
  have hstrip : pyStrip w = w := pyStrip_eq_self w hws
  have hlead : leadingPunct w = (wordRun w).1 := takeWhile_congr_mem w hpq
  have hrest : afterLead w = w.dropWhile (fun c => !isWordChar c) :=
    dropWhile_congr_mem w hpq
  have hsubrest : ∀ c ∈ w.dropWhile (fun c => !isWordChar c), c ∈ w :=
    fun c hc => List.Sublist.mem hc (List.dropWhile_sublist _)
  have hsplit : w.dropWhile (fun c => !isWordChar c) =
      (wordRun w).2.1 ++ (wordRun w).2.2 :=
    (List.takeWhile_append_dropWhile isWordChar _).symm
  have hcoreW : ∀ c ∈ (wordRun w).2.1, isWordChar c = true :=
    fun c hc => List.mem_takeWhile_imp hc
  have hsufW : ∀ c ∈ (wordRun w).2.2, (!isWordChar c) = true :=
    List.all_eq_true.1 hsuf
  have hrevne : (wordRun w).2.1.reverse ≠ [] := by
    intro h0
    exact hcore (by rwa [List.reverse_eq_nil_iff] at h0)
  obtain ⟨d, t', he⟩ := List.exists_cons_of_ne_nil hrevne
  have hd : isWordChar d = true := by
    refine hcoreW d (List.mem_reverse.1 ?_)
    rw [he]
    exact List.mem_cons_self d t'
  have hrevmem : ∀ c ∈ (w.dropWhile (fun c => !isWordChar c)).reverse, c ∈ w :=
    fun c hc => hsubrest c (List.mem_reverse.1 hc)
  have hcongr2 : ((w.dropWhile (fun c => !isWordChar c)).reverse.dropWhile notAlnum) =
      ((w.dropWhile (fun c => !isWordChar c)).reverse.dropWhile (fun c => !isWordChar c)) :=
    dropWhile_congr_mem _ (fun c hc => hpq c (hrevmem c hc))
  have hcongr3 : ((w.dropWhile (fun c => !isWordChar c)).reverse.takeWhile notAlnum) =
      ((w.dropWhile (fun c => !isWordChar c)).reverse.takeWhile (fun c => !isWordChar c)) :=
    takeWhile_congr_mem _ (fun c hc => hpq c (hrevmem c hc))
  have hcoreOf : coreOf w = (wordRun w).2.1 := by
    unfold coreOf
    rw [hrest, hcongr2, hsplit, List.reverse_append,
      dropWhile_append_of_all _ _ (fun c hc => hsufW c (List.mem_reverse.1 hc)),
      he, List.dropWhile_cons, hd]
    simp only [Bool.not_true]
    rw [if_neg (by simp), ← he, List.reverse_reverse]
  have htrail : trailingPunct w = (wordRun w).2.2 := by
    unfold trailingPunct
    rw [hrest, hcongr3, hsplit, List.reverse_append,
      takeWhile_append_of_all _ _ (fun c hc => hsufW c (List.mem_reverse.1 hc)),
      he, List.takeWhile_cons, hd]
    simp only [Bool.not_true]
    rw [if_neg (by simp), List.append_nil, List.reverse_reverse]
  have hc2 : coreOf (pyStrip w) ≠ [] := by
    rw [hstrip, hcoreOf]
    exact hcore
  have happ := apply_bionic_formatting_main w r hc2
  rw [format_token_bionic, reMatch, if_pos ⟨hcore, hsuf⟩, Option.map_some']
  rw [happ, hstrip, hcoreOf, hlead, htrail]

/-- C5, witness: agreement of the two paths at the concrete token
`"(test)"` and ratio 1/2. -/
theorem format_token_bionic_agrees_witness :
    (∀ c ∈ (['(','t','e','s','t',')'] : List Char), c.isWhitespace = false) ∧
    (∀ c ∈ (['(','t','e','s','t',')'] : List Char), c ≠ '_') ∧
    (reMatch ['(','t','e','s','t',')'] ≠ none) ∧
    format_token_bionic ['(','t','e','s','t',')'] (mkRat 1 2) =
      some (apply_bionic_formatting ['(','t','e','s','t',')'] (mkRat 1 2)) :=
  ⟨by decide, by decide, by decide,
    format_token_bionic_agrees _ _ (by decide) (by decide) (by decide)⟩

/-! ### Layout replay (paginated PDF path) -/

/-- The fixed regular replay font of `generate_bionic_pdf` (source line 72). -/
def regular_font : List Char := ['h','e','l','v']

/-- The fixed bold replay font of `generate_bionic_pdf` (source line 73). -/
def bold_font : List Char := ['h','e','b','o']

/-- Python `regular_part.rstrip(' ')`: strip trailing space characters only. -/
def rstripSpace (s : List Char) : List Char :=
  (s.reverse.dropWhile (fun c => c == ' ')).reverse

/-- Abstract width-measurement contract of the rendering library:
`fitz.get_text_length(text, fontname, fontsize)`. -/
abbrev Width : Type := List Char → List Char → ℚ → ℚ

/-- Cursor advance contributed by one non-empty token of the span loop of
`generate_bionic_pdf` (source lines 83-109): the measured width of the bold
part under the bold font when non-empty, plus the measured width of the
space-stripped regular part under the regular font when non-empty. -/
def tokenAdvance (W : Width) (fontSize r : ℚ) (word : List Char) : ℚ :=
  (if (apply_bionic_formatting word r).1 ≠ [] then
    W (apply_bionic_formatting word r).1 bold_font fontSize else 0) +
  (if rstripSpace (apply_bionic_formatting word r).2 ≠ [] then
    W (rstripSpace (apply_bionic_formatting word r).2) regular_font fontSize else 0)

/-- Total cursor advance of the token loop of `generate_bionic_pdf`
(source lines 76-114) over an indexed token list: empty tokens are skipped
entirely (`continue`, source lines 80-81, also skipping the space advance),
and every processed token that is not last additionally advances by one
measured space width (source lines 111-114). -/
def wordsAdvance (W : Width) (fontSize r : ℚ) : List (List Char) → ℚ
  | [] => 0
  | [w] => if w = [] then 0 else tokenAdvance W fontSize r w
  | w :: x :: xs =>
      (if w = [] then 0
       else tokenAdvance W fontSize r w + W [' '] regular_font fontSize) +
      wordsAdvance W fontSize r (x :: xs)

/-- Total cursor advance of one span of `generate_bionic_pdf`: the span text
is split on the single space character and replayed token by token. -/
def spanAdvance (W : Width) (fontSize r : ℚ) (text : List Char) : ℚ :=
  wordsAdvance W fontSize r (text.splitOn ' ')

/-- Reference sum stated by the specification (§8, cumulative width
invariant): the measured widths of the corresponding unsplit tokens under
the non-bold replay font, plus the same inter-word space widths. -/
def specUnsplitAdvance (W : Width) (fontSize : ℚ) : List (List Char) → ℚ
  | [] => 0
  | [w] => if w = [] then 0 else W w regular_font fontSize
  | w :: x :: xs =>
      (if w = [] then 0
       else W w regular_font fontSize + W [' '] regular_font fontSize) +
      specUnsplitAdvance W fontSize (x :: xs)

/-- A concrete width function under which bold-font text measures twice as
wide as regular-font text. -/
def demoWidth : Width := fun t f _ =>
  if f = bold_font then ((2 * t.length : ℕ) : ℚ) else ((t.length : ℕ) : ℚ)

/-- C1, counterexample: with width measurement an abstract function of
(text, font, size), the replayed sub-run advance does not equal the
unsplit-word sum under the non-bold font: on the one-token span `"ab"`
the bold part `"a"` is measured under the bold font (width 2 under
`demoWidth`), so the total advance is 3 while the unsplit word measures 2. -/
theorem spanAdvance_cumulative_width_cex :
    spanAdvance demoWidth 1 (mkRat 1 2) ['a','b'] ≠
      specUnsplitAdvance demoWidth 1 (['a','b'].splitOn ' ') := by
  have hsplit : (['a','b'] : List Char).splitOn ' ' = [['a','b']] := by decide
  have happ : apply_bionic_formatting ['a','b'] (mkRat 1 2) = (['a'], ['b']) := by
    decide
  rw [spanAdvance, hsplit, wordsAdvance, specUnsplitAdvance]
  rw [if_neg (by decide), if_neg (by decide)]
  rw [tokenAdvance, happ]
  have h1 : rstripSpace ['b'] = ['b'] := by decide
  rw [h1, if_pos (by decide), if_pos (by decide)]
  simp only [demoWidth]
  rw [if_pos trivial, if_neg (by decide), if_neg (by decide)]
  norm_num

/-! ### splitOn structure lemmas -/

/-- The split of any list is non-empty. -/
lemma splitOnP_ne_nil (p : Char → Bool) :
    ∀ l : List Char, List.splitOnP p l ≠ []
  | [] => by simp [List.splitOnP_nil]
  | c :: t => by
      rw [List.splitOnP_cons]
      by_cases h : p c = true
      · simp [h]
      · rw [if_neg h]
        cases he : List.splitOnP p t with
        | nil => exact absurd he (splitOnP_ne_nil p t)
        | cons a l' => simp [List.modifyHead_cons]

/-- No token produced by `splitOnP` contains a separator character. -/
lemma mem_splitOnP_no_sep (p : Char → Bool) :
    ∀ (l t : List Char), t ∈ List.splitOnP p l → ∀ c ∈ t, p c = false
  | [], t, ht => by
      rw [List.splitOnP_nil, List.mem_singleton] at ht
      subst ht
      intro c hc
      simp at hc
  | a :: l, t, ht => by
      rw [List.splitOnP_cons] at ht
      by_cases h : p a = true
      · rw [if_pos h] at ht
        rcases List.mem_cons.1 ht with h1 | h1
        · subst h1
          intro c hc
          simp at hc
        · exact mem_splitOnP_no_sep p l t h1
      · rw [if_neg h] at ht
        cases he : List.splitOnP p l with
        | nil => exact absurd he (splitOnP_ne_nil p l)
        | cons b l' =>
            rw [he, List.modifyHead_cons] at ht
            intro c hc
            rcases List.mem_cons.1 ht with h1 | h1
            · subst h1
              rcases List.mem_cons.1 hc with h2 | h2
              · subst h2
                exact Bool.eq_false_iff.2 h
              · have hb : b ∈ List.splitOnP p l := by
                  rw [he]
                  exact List.mem_cons_self _ _
                exact mem_splitOnP_no_sep p l b hb c h2
            · have hmem : t ∈ List.splitOnP p l := by
                rw [he]
                exact List.mem_cons_of_mem _ h1
              exact mem_splitOnP_no_sep p l t hmem c hc

/-- A separator-free prefix extends the first token of the split. -/
lemma splitOnP_append_no_sep {p : Char → Bool} :
    ∀ a b : List Char, (∀ c ∈ a, p c = false) →
      List.splitOnP p (a ++ b) = List.modifyHead (a ++ ·) (List.splitOnP p b)
  | [], b, _ => by
      cases he : List.splitOnP p b with
      | nil => simp [he]
      | cons y l' => simp [he, List.modifyHead_cons]
  | c :: a, b, h => by
      rw [List.cons_append, List.splitOnP_cons, if_neg (by simp [h c (by simp)]),
        splitOnP_append_no_sep a b (fun d hd => h d (by simp [hd]))]
      cases he : List.splitOnP p b with
      | nil => simp [he]
      | cons y l' => simp [he, List.modifyHead_cons]

/-- Splitting a run of separators followed by separator-free text yields one
empty token per separator and the text as the final token. -/
lemma splitOnP_replicate_space :
    ∀ (k : ℕ) (b : List Char), (∀ c ∈ b, (c == ' ') = false) →
      List.splitOnP (fun x => x == ' ') (List.replicate k ' ' ++ b) =
        List.replicate k [] ++ [b]
  | 0, b, h => by
      simp only [List.replicate_zero, List.nil_append]
      have h1 := splitOnP_append_no_sep b [] h
      rw [List.append_nil] at h1
      rw [h1, List.splitOnP_nil, List.modifyHead_cons, List.append_nil]
  | k + 1, b, h => by
      rw [List.replicate_succ, List.cons_append, List.splitOnP_cons,
        if_pos (by simp), splitOnP_replicate_space k b h]
      rw [List.replicate_succ, List.cons_append]

/-- Shape of the split of two separator-free words around a run of `k ≥ 1`
spaces: the first word, `k - 1` empty tokens, the second word. -/
lemma splitOn_two_words (w1 w2 : List Char) (k : ℕ) (hk : 1 ≤ k)
    (h1 : ∀ c ∈ w1, (c == ' ') = false) (h2 : ∀ c ∈ w2, (c == ' ') = false) :
    (w1 ++ List.replicate k ' ' ++ w2).splitOn ' ' =
      w1 :: (List.replicate (k - 1) [] ++ [w2]) := by
  rw [List.splitOn, List.append_assoc,
    splitOnP_append_no_sep w1 _ h1, splitOnP_replicate_space k w2 h2]
  obtain ⟨m, rfl⟩ : ∃ m, k = m + 1 := ⟨k - 1, by omega⟩
  rw [List.replicate_succ, List.cons_append, List.modifyHead_cons, List.append_nil]
  simp

/-! ### Cumulative width invariant -/

/-- Stripping trailing spaces is the identity on space-free strings. -/
lemma rstripSpace_eq_self (s : List Char) (h : ∀ c ∈ s, c ≠ ' ') :
    rstripSpace s = s := by
  unfold rstripSpace
  rw [dropWhile_eq_self_of_all s.reverse
    (fun c hc => beq_eq_false_iff_ne.2 (h c (List.mem_reverse.1 hc))),
    List.reverse_reverse]

/-- An additive width function measures the empty string as zero. -/
lemma width_nil_eq_zero (W : Width) (fs : ℚ)
    (hadd : ∀ a b f, W (a ++ b) f fs = W a f fs + W b f fs) (f : List Char) :
    W [] f fs = 0 := by
  have h := hadd [] [] f
  rw [List.append_nil] at h
  linarith

/-- Under an additive, weight-agnostic width function, a non-empty
space-free strip-invariant token advances the cursor by exactly the width
of the unsplit token under the regular font. -/
lemma tokenAdvance_eq_unsplit (W : Width) (fs r : ℚ)
    (hadd : ∀ a b f, W (a ++ b) f fs = W a f fs + W b f fs)
    (hfont : ∀ t, W t bold_font fs = W t regular_font fs)
    (t : List Char) (hne : t ≠ []) (hsp : ∀ c ∈ t, c ≠ ' ')
    (hst : pyStrip t = t ∨ pyStrip t = []) :
    tokenAdvance W fs r t = W t regular_font fs := by
  have hif : ∀ (s f : List Char), (if s ≠ [] then W s f fs else 0) = W s f fs := by
    intro s f
    by_cases hs : s = []
    · rw [if_neg (by simp [hs]), hs, width_nil_eq_zero W fs hadd f]
    · rw [if_pos hs]
  rcases hst with hst | hst
  · have hcat := apply_concat_eq t r (Or.inl hst)
    have hrs : rstripSpace (apply_bionic_formatting t r).2 =
        (apply_bionic_formatting t r).2 := by
      refine rstripSpace_eq_self _ ?_
      intro c hc
      refine hsp c ?_
      rw [← hcat]
      exact List.mem_append.2 (Or.inr hc)
    rw [tokenAdvance, hrs, hif, hif, hfont, ← hadd, hcat]
  · have happ : apply_bionic_formatting t r = (t, []) :=
      apply_bionic_formatting_degenerate t r (Or.inr (Or.inl hst))
    rw [tokenAdvance, happ]
    simp only
    rw [show rstripSpace [] = [] from rfl, hif, hif,
      width_nil_eq_zero W fs hadd, hfont, add_zero]

/-- The replayed advance equals the specification's unsplit reference sum,
token list by token list, under the amended hypotheses. -/
lemma wordsAdvance_eq_spec (W : Width) (fs r : ℚ)
    (hadd : ∀ a b f, W (a ++ b) f fs = W a f fs + W b f fs)
    (hfont : ∀ t, W t bold_font fs = W t regular_font fs) :
    ∀ ws : List (List Char),
      (∀ t ∈ ws, (∀ c ∈ t, c ≠ ' ') ∧ (pyStrip t = t ∨ pyStrip t = [])) →
      wordsAdvance W fs r ws = specUnsplitAdvance W fs ws
  | [], _ => rfl
  | [w], h => by
      rw [wordsAdvance, specUnsplitAdvance]
      by_cases hw : w = []
      · rw [if_pos hw, if_pos hw]
      · rw [if_neg hw, if_neg hw,
          tokenAdvance_eq_unsplit W fs r hadd hfont w hw
            (h w (by simp)).1 (h w (by simp)).2]
  | w :: x :: xs, h => by
      rw [wordsAdvance, specUnsplitAdvance,
        wordsAdvance_eq_spec W fs r hadd hfont (x :: xs)
          (fun t ht => h t (List.mem_cons_of_mem _ ht))]
      by_cases hw : w = []
      · rw [if_pos hw, if_pos hw]
      · rw [if_neg hw, if_neg hw,
          tokenAdvance_eq_unsplit W fs r hadd hfont w hw
            (h w (by simp)).1 (h w (by simp)).2]

/-- C1 (amended): the cumulative width invariant holds when the abstract
width function is additive over concatenation and measures text identically
under the bold and regular replay fonts, and no token carries exterior
non-space whitespace; the reference sum is taken under the fixed regular
replay font (the source measures with "helv", never with the span's own
font). -/
theorem spanAdvance_cumulative_width (W : Width) (fs r : ℚ)
    (hadd : ∀ a b f, W (a ++ b) f fs = W a f fs + W b f fs)
    (hfont : ∀ t, W t bold_font fs = W t regular_font fs)
    (text : List Char)
    (htok : ∀ t ∈ text.splitOn ' ', pyStrip t = t ∨ pyStrip t = []) :
    spanAdvance W fs r text = specUnsplitAdvance W fs (text.splitOn ' ') := by
  refine wordsAdvance_eq_spec W fs r hadd hfont _ ?_
  intro t ht
  refine ⟨?_, htok t ht⟩
  intro c hc hceq
  rw [List.splitOn] at ht
  have := mem_splitOnP_no_sep _ text t ht c hc
  rw [hceq] at this
  simp at this

/-- A width function that measures pure character count, independent of the
font: additive and weight-agnostic. -/
def lenWidth : Width := fun t _ _ => (t.length : ℚ)

/-- C1, witness: the amended invariant at the two-word span `"ab cd"` under
the character-count width function. -/
theorem spanAdvance_cumulative_width_witness :
    (∀ a b f, lenWidth (a ++ b) f 1 = lenWidth a f 1 + lenWidth b f 1) ∧
    (∀ t, lenWidth t bold_font 1 = lenWidth t regular_font 1) ∧
    (∀ t ∈ (['a','b',' ','c','d'] : List Char).splitOn ' ',
        pyStrip t = t ∨ pyStrip t = []) ∧
    spanAdvance lenWidth 1 (mkRat 1 2) ['a','b',' ','c','d'] =
      specUnsplitAdvance lenWidth 1 ((['a','b',' ','c','d'] : List Char).splitOn ' ') := by
  have hadd : ∀ a b f, lenWidth (a ++ b) f 1 = lenWidth a f 1 + lenWidth b f 1 := by
    intro a b f
    simp [lenWidth, List.length_append]
  have hfont : ∀ t, lenWidth t bold_font 1 = lenWidth t regular_font 1 :=
    fun t => rfl
  exact ⟨hadd, hfont, by decide,
    spanAdvance_cumulative_width lenWidth 1 (mkRat 1 2) hadd hfont _ (by decide)⟩

/-! ### Space-run collapse -/

/-- A skipped empty token contributes nothing, not even a space advance. -/
lemma wordsAdvance_nil_cons (W : Width) (fs r : ℚ) (x : List Char)
    (xs : List (List Char)) :
    wordsAdvance W fs r ([] :: x :: xs) = wordsAdvance W fs r (x :: xs) := by
  rw [wordsAdvance, if_pos rfl, zero_add]

/-- Advancing over a run of empty tokens followed by one final word is just
that word's token advance. -/
lemma wordsAdvance_replicate_nil (W : Width) (fs r : ℚ) (w2 : List Char)
    (hw2 : w2 ≠ []) :
    ∀ m : ℕ, wordsAdvance W fs r (List.replicate m [] ++ [w2]) =
      tokenAdvance W fs r w2
  | 0 => by
      rw [List.replicate_zero, List.nil_append, wordsAdvance, if_neg hw2]
  | m + 1 => by
      rw [List.replicate_succ, List.cons_append]
      obtain ⟨x, xs, he⟩ :=
        List.exists_cons_of_ne_nil
          (show List.replicate m ([] : List Char) ++ [w2] ≠ [] by simp)
      rw [he, wordsAdvance_nil_cons, ← he]
      exact wordsAdvance_replicate_nil W fs r w2 hw2 m

/-- An empty (skipped) token still produces a `('', ' ')` entry in
`format_text`'s token loop when it is not last. -/
lemma formatWords_nil_cons (r : ℚ) (x : List Char) (xs : List (List Char)) :
    formatWords r ([] :: x :: xs) = ([], [' ']) :: formatWords r (x :: xs) := by
  rw [formatWords]
  have happ : apply_bionic_formatting [] r = ([], []) := by
    rw [apply_bionic_formatting, if_pos (Or.inl rfl)]
  rw [happ]
  rfl

/-- The token loop over a run of empty tokens followed by one final word. -/
lemma formatWords_replicate_nil (r : ℚ) (w2 : List Char) :
    ∀ m : ℕ, formatWords r (List.replicate m [] ++ [w2]) =
      List.replicate m (([] : List Char), [' ']) ++ [apply_bionic_formatting w2 r]
  | 0 => by
      rw [List.replicate_zero, List.nil_append, List.replicate_zero, List.nil_append]
      rfl
  | m + 1 => by
      rw [List.replicate_succ, List.cons_append]
      obtain ⟨x, xs, he⟩ :=
        List.exists_cons_of_ne_nil
          (show List.replicate m ([] : List Char) ++ [w2] ≠ [] by simp)
      rw [he, formatWords_nil_cons, ← he, formatWords_replicate_nil r w2 m,
        List.replicate_succ, List.cons_append]

/-- C10 (confirmed): in the paginated path, a run of `k ≥ 2` spaces between
two space-free words advances the cursor by exactly one measured space
width — the empty tokens produced by the split are skipped before the
space advance — while `format_text` on the same text emits one
`('', ' ')` entry per empty token (`k - 1` of them). -/
theorem spanAdvance_space_collapse (W : Width) (fs r : ℚ)
    (w1 w2 : List Char) (k : ℕ)
    (h1 : w1 ≠ []) (h2 : w2 ≠ [])
    (hs1 : ∀ c ∈ w1, c ≠ ' ') (hs2 : ∀ c ∈ w2, c ≠ ' ')
    (hk : 2 ≤ k) :
    spanAdvance W fs r (w1 ++ List.replicate k ' ' ++ w2) =
      tokenAdvance W fs r w1 + W [' '] regular_font fs + tokenAdvance W fs r w2 ∧
    format_text (w1 ++ List.replicate k ' ' ++ w2) r =
      ((apply_bionic_formatting w1 r).1, (apply_bionic_formatting w1 r).2 ++ [' ']) ::
        (List.replicate (k - 1) (([] : List Char), [' ']) ++
          [apply_bionic_formatting w2 r]) := by
  have hsplit := splitOn_two_words w1 w2 k (by omega)
    (fun c hc => beq_eq_false_iff_ne.2 (hs1 c hc))
    (fun c hc => beq_eq_false_iff_ne.2 (hs2 c hc))
  obtain ⟨x, xs, he⟩ :=
    List.exists_cons_of_ne_nil
      (show List.replicate (k - 1) ([] : List Char) ++ [w2] ≠ [] by simp)
  constructor
  · rw [spanAdvance, hsplit, he, wordsAdvance, if_neg h1, ← he,
      wordsAdvance_replicate_nil W fs r w2 h2 (k - 1), add_assoc]
  · rw [format_text, hsplit, he, formatWords, ← he,
      formatWords_replicate_nil r w2 (k - 1)]

/-- C10, witness: the collapse at `"a"`, three spaces, `"b"` under the
demonstration width function. -/
theorem spanAdvance_space_collapse_witness :
    ((['a'] : List Char) ≠ []) ∧ ((['b'] : List Char) ≠ []) ∧
    (∀ c ∈ (['a'] : List Char), c ≠ ' ') ∧ (∀ c ∈ (['b'] : List Char), c ≠ ' ') ∧
    (2 ≤ 3) ∧
    (spanAdvance demoWidth 1 (mkRat 1 2) (['a'] ++ List.replicate 3 ' ' ++ ['b']) =
      tokenAdvance demoWidth 1 (mkRat 1 2) ['a'] +
        demoWidth [' '] regular_font 1 + tokenAdvance demoWidth 1 (mkRat 1 2) ['b'] ∧
    format_text (['a'] ++ List.replicate 3 ' ' ++ ['b']) (mkRat 1 2) =
      ((apply_bionic_formatting ['a'] (mkRat 1 2)).1,
        (apply_bionic_formatting ['a'] (mkRat 1 2)).2 ++ [' ']) ::
        (List.replicate 2 (([] : List Char), [' ']) ++
          [apply_bionic_formatting ['b'] (mkRat 1 2)])) :=
  ⟨by decide, by decide, by decide, by decide, by decide,
    spanAdvance_space_collapse demoWidth 1 (mkRat 1 2) ['a'] ['b'] 3
      (by decide) (by decide) (by decide) (by decide) (by decide)⟩

/-! ### Measurement failure behaviour -/

/-- Fallible width-measurement contract: `fitz.get_text_length` may raise,
modelled in the exception monad. -/
abbrev WidthE (ε : Type) : Type := List Char → List Char → ℚ → Except ε ℚ

/-- Per-token advance of the span loop with fallible measurement calls,
sequenced exactly as the source performs them (bold measurement at line 95,
regular measurement at line 108): the source wraps none of these calls in
`try`/`except`, so a raised exception propagates by monadic bind. -/
def tokenAdvanceE {ε : Type} (W : WidthE ε) (fontSize r : ℚ)
    (word : List Char) : Except ε ℚ := do
  let wb ← (if (apply_bionic_formatting word r).1 ≠ [] then
      W (apply_bionic_formatting word r).1 bold_font fontSize else pure 0)
  let wr ← (if rstripSpace (apply_bionic_formatting word r).2 ≠ [] then
      W (rstripSpace (apply_bionic_formatting word r).2) regular_font fontSize
    else pure 0)
  pure (wb + wr)

/-- Token loop of `generate_bionic_pdf` with fallible measurement: the
source has no exception handler anywhere in the text path (only the image
block, lines 118-133, is wrapped in `try`/`except`). -/
def wordsAdvanceE {ε : Type} (W : WidthE ε) (fontSize r : ℚ) :
    List (List Char) → Except ε ℚ
  | [] => pure 0
  | [w] => if w = [] then pure 0 else tokenAdvanceE W fontSize r w
  | w :: x :: xs => do
      let a ← (if w = [] then pure 0 else do
          let t ← tokenAdvanceE W fontSize r w
          let sp ← W [' '] regular_font fontSize
          pure (t + sp))
      let rest ← wordsAdvanceE W fontSize r (x :: xs)
      pure (a + rest)

/-- Span replay with fallible measurement. -/
def spanAdvanceE {ε : Type} (W : WidthE ε) (fontSize r : ℚ)
    (text : List Char) : Except ε ℚ :=
  wordsAdvanceE W fontSize r (text.splitOn ' ')

instance {ε α : Type} [DecidableEq ε] [DecidableEq α] :
    DecidableEq (Except ε α) := fun a b =>
  match a, b with
  | Except.error e1, Except.error e2 =>
      match decEq e1 e2 with
      | isTrue h => isTrue (congrArg Except.error h)
      | isFalse h => isFalse (fun hc => h (Except.error.inj hc))
  | Except.error _, Except.ok _ => isFalse (fun hc => Except.noConfusion hc)
  | Except.ok _, Except.error _ => isFalse (fun hc => Except.noConfusion hc)
  | Except.ok a1, Except.ok a2 =>
      match decEq a1 a2 with
      | isTrue h => isTrue (congrArg Except.ok h)
      | isFalse h => isFalse (fun hc => h (Except.ok.inj hc))

/-- A width function that fails on the single glyph run `"x"`. -/
def demoFailWidth : WidthE ℕ :=
  fun t _ _ => if t = ['x'] then Except.error 0 else Except.ok 0

/-- C6, counterexample: a measurement failure on one token is NOT recovered
— on the span `"xy ab"`, measuring the bold run `"x"` of the first token
fails and the whole span replay aborts with that error; the second token
`"ab"` is never processed and no fallback emission occurs. -/
theorem spanAdvanceE_abort_cex :
    spanAdvanceE demoFailWidth 1 (mkRat 1 2) ['x','y',' ','a','b'] =
      Except.error 0 := by decide

/-- The bold half returned for a non-empty token is never empty. -/
lemma apply_bold_ne_nil (w : List Char) (r : ℚ) (hw : w ≠ []) :
    (apply_bionic_formatting w r).1 ≠ [] := by
  unfold apply_bionic_formatting
  by_cases h0 : w = [] ∨ pyStrip w = []
  · rw [if_pos h0]
    exact hw
  · rw [if_neg h0]
    by_cases hc : coreOf (pyStrip w) = []
    · rw [if_pos hc]
      exact hw
    · rw [if_neg hc]
      simp only
      intro hnil
      have hlen := congrArg List.length hnil
      rw [List.length_append, List.length_take, List.length_nil] at hlen
      have hn : 1 ≤ (coreOf (pyStrip w)).length := by
        have := List.length_pos.2 hc
        omega
      have hk : 1 ≤ ((boldCount (coreOf (pyStrip w)).length r).toNat) := by
        have hbc : 1 ≤ boldCount (coreOf (pyStrip w)).length r := by
          unfold boldCount
          split
          · exact le_refl 1
          · split
            · omega
            · exact le_max_left 1 _
        calc 1 = (1 : ℤ).toNat := rfl
          _ ≤ _ := Int.toNat_le_toNat hbc
      omega

/-- C6 (amended): there is no local recovery in the token loop — if the
bold-run measurement of the first token of a span fails with error `e`, the
whole span replay returns `error e`: the failure aborts processing of the
remaining tokens of the span (and hence of the line, page and document,
since the source has no handler on the text path). -/
theorem wordsAdvanceE_error_propagates {ε : Type} (W : WidthE ε) (fs r : ℚ)
    (w : List Char) (ws : List (List Char)) (e : ε)
    (hw : w ≠ [])
    (hfail : W (apply_bionic_formatting w r).1 bold_font fs = Except.error e) :
    wordsAdvanceE W fs r (w :: ws) = Except.error e := by
  have hb := apply_bold_ne_nil w r hw
  cases ws with
  | nil =>
      rw [wordsAdvanceE, if_neg hw, tokenAdvanceE, if_pos hb, hfail]
      rfl
  | cons x xs =>
      rw [wordsAdvanceE, if_neg hw, tokenAdvanceE, if_pos hb, hfail]
      rfl

/-- C6, witness: the propagation theorem at the concrete failing span
`"xy ab"` (token `"xy"`, bold run `"x"`), matching the counterexample. -/
theorem wordsAdvanceE_error_propagates_witness :
    ((['x','y'] : List Char) ≠ []) ∧
    (demoFailWidth (apply_bionic_formatting ['x','y'] (mkRat 1 2)).1 bold_font 1 =
      Except.error 0) ∧
    wordsAdvanceE demoFailWidth 1 (mkRat 1 2) [['x','y'], ['a','b']] =
      Except.error 0 :=
  ⟨by decide, by decide,
    wordsAdvanceE_error_propagates demoFailWidth 1 (mkRat 1 2) ['x','y'] [['a','b']] 0
      (by decide) (by decide)⟩
